import Mathlib

/-!
Verification of the operator family of a reverse-mode automatic-differentiation
engine (`src/ops/array_ops.rs`, `src/ops/activation_ops.rs`).

Shallow embedding conventions:
* dense arrays are modelled as flat `List ℚ` (values) together with, where an
  operator inspects it, an explicit `shape : List ℕ`; `Softmax` (which needs
  `exp`) is modelled over `ℝ`;
* `compute` paths that can `panic!`/`unwrap()`/`assert!` return `Option`
  (`none` renders the fatal abort); the `Owned` / `View` tag of `ArrRepr`
  is rendered by an explicit tagged type;
* Rust `usize` casts of negative `isize` values (which wrap to huge numbers
  and then make every bound check fail) are rendered by the corresponding
  failing guard.
-/

/-- The `crate::ArrRepr` tag: an operator result is either a freshly `Owned`
array or a non-owning `View` aliasing an input's storage.  Aliasing is
rendered by the `view` constructor carrying the aliased value itself. -/
inductive ArrRepr (α : Type) where
  | view (v : α)
  | owned (a : α)
deriving DecidableEq

/-- Outcome of a `compute` call (`op::ComputeResults` entry): a successful
`Result::Ok`, a recoverable `Result::Err`, or a fatal `panic!` abort
(rendered `fatal`). -/
inductive ComputeOut (α : Type) where
  | ok (r : ArrRepr α)
  | err
  | fatal
deriving DecidableEq

/-- `true` exactly on the recoverable-error outcome `ComputeOut.err`. -/
def ComputeOut.isErr {α : Type} : ComputeOut α → Bool
  | .err => true
  | _ => false

/-- A dynamically-ranked dense array: row-major `shape` plus flattened data. -/
structure Arr where
  shape : List ℕ
  data : List ℚ
deriving DecidableEq

/- ### IndexOp / IndexOpGrad (array_ops.rs lines 298-370) -/

/-- Negative-index wraparound shared by `IndexOp::compute` and
`IndexOpGrad::compute`:
`if self.index < 0 { (x.len() as isize + self.index) as usize } else { ... }`.
The result is kept in `ℤ`; a still-negative value models the huge wrapped
`usize` (every later bound check fails on it, exactly as in Rust). -/
def indexOpResolve (index : ℤ) (len : ℕ) : ℤ :=
  if index < 0 then (len : ℤ) + index else index

/-- `IndexOp::compute` (lines 303-322): flatten `x`, read the resolved
position; `none` renders the `panic!("Index out of bounds")`. -/
def indexOpCompute (index : ℤ) (x : List ℚ) : Option ℚ :=
  let i := indexOpResolve index x.length
  if h : 0 ≤ i ∧ i.toNat < x.length then some (x.get ⟨i.toNat, h.2⟩) else none

/-- `IndexOpGrad::compute` (lines 339-365): zero array of the input's shape
(flattened here, `xLen` elements), with the scalar incoming gradient `gy`
written at the resolved flat position; `none` renders the
`panic!("Index out of bounds")`. -/
def indexOpGradCompute (index : ℤ) (xLen : ℕ) (gy : ℚ) : Option (List ℚ) :=
  let i := indexOpResolve index xLen
  if 0 ≤ i ∧ i.toNat < xLen then
    some ((List.replicate xLen (0 : ℚ)).set i.toNat gy)
  else none

/- ### Clip / ClipGrad (array_ops.rs lines 529-576) and ReLU
   (activation_ops.rs lines 126-143) -/

/-- `Clip::compute` (lines 534-542): elementwise `a.min(max).max(min)`. -/
def clipCompute (mn mx : ℚ) (x : List ℚ) : List ℚ :=
  x.map fun a => max (min a mx) mn

/-- `ClipGrad::compute` (lines 560-571): the elementwise indicator
`((x > min) as i32 as f32) * ((x < max) as i32 as f32)` (strict on both
bounds), multiplied by the incoming gradient. -/
def clipGradCompute (mn mx : ℚ) (x gy : List ℚ) : List ℚ :=
  List.zipWith (· * ·)
    (x.map fun a => (if mn < a then (1 : ℚ) else 0) * (if a < mx then (1 : ℚ) else 0))
    gy

/-- `ReLU::compute` (lines 131-137): elementwise `a.max(0)`. -/
def reluCompute (x : List ℚ) : List ℚ :=
  x.map fun a => max a 0

/-- Modelled from the spec: `ops::greater` (used by `ReLU::grad`, not under
`src/`) — elementwise indicator of `x > c`, producing `1` or `0`. -/
def greaterScalar (x : List ℚ) (c : ℚ) : List ℚ :=
  x.map fun a => if c < a then (1 : ℚ) else 0

/-- Modelled from the spec: `ops::mul` (used by `ReLU::grad`, not under
`src/`) — elementwise product. -/
def mulCompute (a b : List ℚ) : List ℚ :=
  List.zipWith (· * ·) a b

/-- `ReLU::grad` (lines 139-142): `mul(greater(x, 0), gy)`. -/
def reluGradCompute (x gy : List ℚ) : List ℚ :=
  mulCompute (greaterScalar x 0) gy

/- ### Concat / ConcatGrad (array_ops.rs lines 578-684) and Reshape
   (lines 195-248) -/

/-- Validity condition of `ndarray::stack(Axis(axis), views)` as used by
`Concat::compute`: at least one array, `axis` in range, and all arrays of
the same rank agreeing on every non-`axis` extent. -/
def stackShapesOk (axis : ℕ) (shapes : List (List ℕ)) : Bool :=
  match shapes with
  | [] => false
  | s0 :: rest =>
    decide (axis < s0.length) &&
    rest.all fun s =>
      decide (s.length = s0.length) &&
      (List.range s0.length).all fun d =>
        decide (d = axis) || decide (s.getD d 0 = s0.getD d 0)

/-- `Concat::compute` (lines 583-605) at the level of shapes and outcomes:
a negative axis is normalized against `xs[0].ndim()` (empty input list makes
`xs[0]` itself fatal); a failing `ndarray::stack` is
`panic!("Can't concat arrays whose shapes are incompatible.")` — `fatal`,
never a recoverable `err`. -/
def concatComputeOutcome (axis : ℤ) (shapes : List (List ℕ)) : ComputeOut Unit :=
  match shapes with
  | [] => .fatal
  | s0 :: _ =>
    let a : ℤ := if axis < 0 then (s0.length : ℤ) + axis else axis
    if 0 ≤ a ∧ stackShapesOk a.toNat shapes = true then .ok (.owned ()) else .fatal

/-- Target-shape resolution of `Reshape::compute` (lines 207-217): each
entry is taken verbatim via `to_usize().unwrap()` (fatal on a negative that
is not the `-1` sentinel); `-1` is replaced by
`x.len() / product_of_all_entries.neg().to_usize().unwrap()`; `none` renders
the fatal unwraps and the `usize` division by zero. -/
def reshapeTarget (xLen : ℕ) (shapeArr : List ℤ) : Option (List ℕ) :=
  let product : ℤ := shapeArr.foldl (· * ·) 1
  shapeArr.mapM fun d =>
    if d ≠ -1 then
      if 0 ≤ d then some d.toNat else none
    else
      if 0 < -product then some (xLen / (-product).toNat) else none

/-- `Reshape::compute` (lines 200-240) restricted to a standard-layout input
(operators receive materialized contiguous views): on success a zero-copy
`View`; a target whose element count disagrees with `x.len()` (both
`into_shape` attempts fail) is `panic!("Reshape failed: ...")` — `fatal`,
never a recoverable `err`. -/
def reshapeComputeOutcome (xLen : ℕ) (shapeArr : List ℤ) : ComputeOut Unit :=
  match reshapeTarget xLen shapeArr with
  | none => .fatal
  | some target => if target.prod = xLen then .ok (.view ()) else .fatal

/-- `ndarray` 1-D slicing `SliceOrIndex::Slice { start, end: Some(end), step: 1 }`:
negative bounds wrap by the length; `to_abs_slice` clamps an inverted slice
(`end < start`) to the empty range at `start` — rendered by the truncating
`(e - s).toNat` — so inversion yields an empty view; only a bound that is
out of range after wrapping is a fatal abort (`none`). -/
def sliceRange1 (start endd : ℤ) (l : List ℚ) : Option (List ℚ) :=
  let s := if start < 0 then (l.length : ℤ) + start else start
  let e := if endd < 0 then (l.length : ℤ) + endd else endd
  if 0 ≤ s ∧ 0 ≤ e ∧ s ≤ (l.length : ℤ) ∧ e ≤ (l.length : ℤ) then
    some ((l.drop s.toNat).take (e - s).toNat)
  else none

/-- `ConcatGrad::compute` (lines 633-679) specialized to rank-1 inputs
(`axis` normalized against `xs[0].ndim() = 1`; any normalized axis other
than `0` makes the extent lookup `x.shape()[axis]` in lines 649-652 a fatal
out-of-range abort, `none`): the node inputs are `[gy, x0, ..., xn]`;
`start_idx` is the summed axis extent of `xs[..index]`, `region_len` the
extent of `xs[index]`, and the emitted slice for the concat axis is
`start: start_idx, end: Some(region_len), step: 1` — the `end` bound is
`region_len` itself, not `start_idx + region_len`. -/
def concatGradCompute1 (axis : ℤ) (index : ℕ) (gy : List ℚ) (xs : List (List ℚ)) :
    Option (List ℚ) :=
  match xs with
  | [] => none
  | _ :: _ =>
    if index < xs.length then
      let a : ℤ := if axis < 0 then (1 : ℤ) + axis else axis
      if a = 0 then
        let startIdx : ℤ := (((xs.take index).map List.length).sum : ℕ)
        let regionLen : ℤ := ((xs.getD index []).length : ℕ)
        sliceRange1 startIdx regionLen gy
      else none
    else none

/-- The slice the spec prescribes for `ConcatGrad` slot `index`: offset =
summed axis extents of the preceding inputs, length = that input's own
extent. -/
def concatGradSliceSpec (extents : List ℕ) (index : ℕ) (gy : List ℚ) : List ℚ :=
  (gy.drop ((extents.take index).sum)).take (extents.getD index 0)

/- ### Gather / GatherGrad (array_ops.rs lines 372-496) -/

/-- Modelled from the spec: `ndarray_ext::normalize_negative_axis` (used by
`Gather::compute`, not under `src/`) — a negative axis counts back from the
rank. -/
def normalizeNegativeAxis (axis : ℤ) (ndim : ℕ) : ℕ :=
  if axis < 0 then ((ndim : ℤ) + axis).toNat else axis.toNat

/-- The scatter loop of `GatherGrad::compute` (lines 455-488) on the lane
decomposition along the resolved axis: `gx` holds one flattened slab per
axis position; each `(gy_sub, i)` pair updates the slab at the slice
`start: i, end: Some(i + 1)` by elementwise accumulation `*gx += gy`.
`ndarray` slice semantics: negative bounds wrap by `n`; an out-of-range or
inverted slice, and the subsequent `index_axis` on an empty slice, are
fatal (`none`). -/
def scatterLoop (gx : List (List ℚ)) (pairs : List (List ℚ × ℤ)) (n : ℕ) :
    Option (List (List ℚ)) :=
  match pairs with
  | [] => some gx
  | (g, i) :: rest =>
    let s : ℤ := if i < 0 then (n : ℤ) + i else i
    let e : ℤ := if i + 1 < 0 then (n : ℤ) + (i + 1) else i + 1
    if 0 ≤ s ∧ s < e ∧ e ≤ (n : ℤ) then
      scatterLoop (gx.set s.toNat (List.zipWith (· + ·) (gx.getD s.toNat []) g)) rest n
    else none

/-- `GatherGrad::compute` (lines 425-491) on the lane decomposition along
the resolved axis.  The axis is resolved by lines 434-438:
`if self.axis == -1 { param.ndim() } else { self.axis as usize }` (any other
negative value wraps to a huge `usize`, `none`); the shape splits
`param_shape[..axis]` / `param_shape[axis + 1..]` (lines 442-443) are fatal
when `axis + 1 > param.ndim()`.  `gy` is reinterpreted as one slab per index
entry (`gySlabs`), and a zero-initialized `gx` — `param_shape[axis]` slabs
of `prefix-product * suffix-product` zeros — is filled by the accumulating
scatter loop. -/
def gatherGradCompute (axis : ℤ) (paramShape : List ℕ) (indices : List ℤ)
    (gySlabs : List (List ℚ)) : Option (List (List ℚ)) :=
  let aOpt : Option ℕ :=
    if axis = -1 then some paramShape.length
    else if 0 ≤ axis then some axis.toNat else none
  match aOpt with
  | none => none
  | some a =>
    if a + 1 ≤ paramShape.length then
      let n := paramShape.getD a 0
      let slabLen := (paramShape.take a).prod * (paramShape.drop (a + 1)).prod
      scatterLoop (List.replicate n (List.replicate slabLen (0 : ℚ)))
        (gySlabs.zip indices) n
    else none

/-- Elementwise sum of a list of equally-long slabs, starting from
`slabLen` zeros. -/
def slabSum (slabLen : ℕ) (gs : List (List ℚ)) : List ℚ :=
  gs.foldl (List.zipWith (· + ·)) (List.replicate slabLen (0 : ℚ))

/- ### AddN (array_ops.rs lines 498-527) -/

/-- `AddN::compute` (lines 503-522): an empty input list is `unreachable!()`
(`none`); exactly one input returns the zero-copy `View` aliasing that
input's storage (rendered by the `view` tag carrying the input itself);
two inputs return `Owned (xs[0] + xs[1])`; more inputs left-fold `+=` onto
that base. -/
def addNCompute (xs : List (List ℚ)) : Option (ArrRepr (List ℚ)) :=
  match xs with
  | [] => none
  | [x] => some (.view x)
  | [x, y] => some (.owned (List.zipWith (· + ·) x y))
  | x :: y :: rest =>
    some (.owned (rest.foldl (List.zipWith (· + ·)) (List.zipWith (· + ·) x y)))

/-- `AddN::grad` (lines 524-526): `vec![Some(gy.clone()); inputs.len()]` —
the single incoming gradient node, unchanged, once per input. -/
def addNGrad {γ : Type} (gy : γ) (ninputs : ℕ) : List (Option γ) :=
  List.replicate ninputs (some gy)

/-- Spec-side elementwise sum of all inputs, position by position. -/
def addNSpecSum (xs : List (List ℚ)) (len : ℕ) : List ℚ :=
  (List.range len).map fun j => (xs.map fun l => l.getD j 0).sum

/- ### ExpandDims / Squeeze (array_ops.rs lines 857-927) -/

/-- The insertion loop of `ExpandDims::compute` (lines 910-918): for each
axis of the sorted list, a negative value is resolved against the input's
*original* rank `ndim0` (`ret.ndim()`, which never changes — `ret` is the
input view), and a unit extent is inserted at that position of the growing
output shape (`Vec::insert`, fatal beyond the current length or on a
wrapped negative). -/
def expandLoop (ndim0 : ℕ) (s : List ℕ) (axes : List ℤ) : Option (List ℕ) :=
  match axes with
  | [] => some s
  | i :: rest =>
    let axis : ℤ := if i < 0 then (ndim0 : ℤ) + i else i
    if 0 ≤ axis ∧ axis.toNat ≤ s.length then
      expandLoop ndim0 (s.insertIdx axis.toNat 1) rest
    else none

/-- `ExpandDims::compute` (lines 899-922): sort the axes, insert a unit
extent per axis, then reinterpret the contiguous data in the new shape
(`into_shape(..).unwrap()`, fatal on an element-count mismatch). -/
def expandDimsCompute (x : Arr) (axesArr : List ℤ) : Option Arr :=
  (expandLoop x.shape.length x.shape (axesArr.insertionSort (· ≤ ·))).bind
    fun outShape =>
      if outShape.prod = x.data.length then some ⟨outShape, x.data⟩ else none

/-- The removal loop of `Squeeze::compute` (lines 873-885): for each axis of
the sorted list, a negative value is resolved against the *current* rank
(`x.ndim()` of the partially squeezed array), shifted down by the number of
axes already removed (`axis - adjust`; a negative difference is a fatal
`usize` underflow/huge index), the extent is asserted to be `1`
(`assert_eq!`, fatal otherwise), and the axis is removed via
`index_axis_move(Axis(axis), 0)`. -/
def squeezeLoop (s : List ℕ) (adjust : ℕ) (axes : List ℤ) : Option (List ℕ) :=
  match axes with
  | [] => some s
  | i :: rest =>
    let axis0 : ℤ := if i < 0 then (s.length : ℤ) + i else i
    if 0 ≤ axis0 ∧ adjust ≤ axis0.toNat then
      if h : axis0.toNat - adjust < s.length then
        if s.get ⟨axis0.toNat - adjust, h⟩ = 1 then
          squeezeLoop (s.eraseIdx (axis0.toNat - adjust)) (adjust + 1) rest
        else none
      else none
    else none

/-- `Squeeze::compute` (lines 862-887): sort the axes and remove the
selected unit extents; removing a unit-extent axis of a contiguous array
leaves the flattened data unchanged. -/
def squeezeCompute (x : Arr) (axesArr : List ℤ) : Option Arr :=
  (squeezeLoop x.shape 0 (axesArr.insertionSort (· ≤ ·))).map fun outShape =>
    ⟨outShape, x.data⟩

/- ### Softmax (activation_ops.rs lines 24-78) -/

/-- `softmax_forward` (lines 29-57) on one lane along the reduction axis
(`fold_axis`, and the broadcast subtraction/division, act lane-wise): the
lane maximum is folded starting from `T::min_value()` — rendered by the
parameter `minValue`, with the theorems holding for every starting value —
subtracted before `exp`, and the exponentials are normalized by their
lane sum. -/
noncomputable def softmaxForward1 (minValue : ℝ) (x : List ℝ) : List ℝ :=
  let m := x.foldl max minValue
  let tmp := x.map fun a => Real.exp (a - m)
  let s := tmp.sum
  tmp.map (· / s)

/-- `Softmax::grad` (lines 74-77) on one lane:
`sum = reduce_sum(output * gy, axis, keepdims = true)`, then
`(gy - sum) * output`. -/
noncomputable def softmaxGrad1 (y gy : List ℝ) : List ℝ :=
  let s := (List.zipWith (· * ·) y gy).sum
  List.zipWith (· * ·) (gy.map (· - s)) y

/- ### The operator catalogue: compute arity and gradient slots -/

/-- The operator variants of the family (`activation_ops.rs`,
`array_ops.rs`).  Variadic operators carry their forward input count `n`;
`concatGrad n` differentiates a `Concat` of `n` inputs and therefore has
`n + 1` node inputs `[gy, x0, ..., x(n-1)]`. -/
inductive Op where
  | elu
  | eluGrad
  | identity
  | relu
  | sigmoid
  | softplus
  | softmax
  | inferBinOpShape
  | shapeOp
  | rankOp
  | sizeOp
  | reshape
  | setDiff1D
  | indexOp
  | indexOpGrad
  | gather
  | gatherGrad
  | addN (n : ℕ)
  | clip
  | clipGrad
  | concat (n : ℕ)
  | concatGrad (n : ℕ)
  | tile
  | split
  | splitGrad
  | slice
  | sliceGrad
  | squeeze
  | expandDims
deriving DecidableEq

/-- The number of inputs each variant's `compute` consumes (the entries of
`ctx.grab_inputs()` it reads, equal to the input list its builder sets). -/
def computeArity : Op → ℕ
  | .elu => 1
  | .eluGrad => 2
  | .identity => 1
  | .relu => 1
  | .sigmoid => 1
  | .softplus => 1
  | .softmax => 1
  | .inferBinOpShape => 2
  | .shapeOp => 1
  | .rankOp => 1
  | .sizeOp => 1
  | .reshape => 2
  | .setDiff1D => 2
  | .indexOp => 1
  | .indexOpGrad => 2
  | .gather => 2
  | .gatherGrad => 3
  | .addN n => n
  | .clip => 1
  | .clipGrad => 2
  | .concat n => n
  | .concatGrad n => n + 1
  | .tile => 1
  | .split => 1
  | .splitGrad => 2
  | .slice => 1
  | .sliceGrad => 2
  | .squeeze => 2
  | .expandDims => 2

/-- The gradient slots each variant's `grad` method returns, one entry per
returned element: `true` renders `Some(..)`, `false` renders `None`. -/
def gradSlots : Op → List Bool
  | .elu => [true]
  | .eluGrad => [false, false]
  | .identity => [true]
  | .relu => [true]
  | .sigmoid => [true]
  | .softplus => [true]
  | .softmax => [true]
  | .inferBinOpShape => [false, false]
  | .shapeOp => [false]
  | .rankOp => [false]
  | .sizeOp => [false]
  | .reshape => [true, false]
  | .setDiff1D => [false, false]
  | .indexOp => [true]
  | .indexOpGrad => [false]
  | .gather => [false, true]
  | .gatherGrad => [false, false, false]
  | .addN n => List.replicate n true
  | .clip => [true]
  | .clipGrad => [false, false]
  | .concat n => List.replicate n true
  | .concatGrad n => List.replicate (n + 1) false
  | .tile => [true]
  | .split => [true]
  | .splitGrad => [false]
  | .slice => [true]
  | .sliceGrad => [false, false]
  | .squeeze => [true, false]
  | .expandDims => [true, false]

/- ### Theorems -/

/-- C4: `IndexOp` wraps a negative index around the flattened length
(`IndexOp(-1)` on a length-5 array yields flat position 4); `IndexOpGrad`
with scalar gradient `7` yields zeros except position 4 = 7; an out-of-range
resolved index is fatal (`none`) in both operators. -/
theorem indexOp_wraparound_grad_scatter (x : List ℚ) (g : ℚ) :
    (∀ index : ℤ, index < 0 → 0 ≤ (x.length : ℤ) + index →
      indexOpCompute index x = x[((x.length : ℤ) + index).toNat]?)
    ∧ indexOpCompute (-1) [1, 2, 3, 4, 5] = some 5
    ∧ indexOpGradCompute (-1) 5 7 = some [0, 0, 0, 0, 7]
    ∧ (∀ index : ℤ,
        ¬(0 ≤ indexOpResolve index x.length ∧
          (indexOpResolve index x.length).toNat < x.length) →
        indexOpCompute index x = none ∧ indexOpGradCompute index x.length g = none) := by
  refine ⟨?_, by decide, by decide, ?_⟩
  · intro index hneg hge
    have hres : indexOpResolve index x.length = (x.length : ℤ) + index := by
      simp [indexOpResolve, hneg]
    by_cases hlt : (((x.length : ℤ) + index).toNat) < x.length
    · rw [indexOpCompute]
      rw [dif_pos]
      · simp only [List.get_eq_getElem]
        rw [List.getElem?_eq_getElem hlt]
        simp [hres]
      · exact ⟨by rw [hres]; exact hge, by rw [hres]; exact hlt⟩
    · rw [indexOpCompute, dif_neg, List.getElem?_eq_none]
      · exact Nat.le_of_not_lt hlt
      · rw [hres]
        intro hc
        exact hlt hc.2
  · intro index hnot
    constructor
    · rw [indexOpCompute, dif_neg hnot]
    · rw [indexOpGradCompute, if_neg hnot]

/-- C4 witness: the theorem applied at concrete inputs. -/
theorem indexOp_wraparound_grad_scatter_w :
    indexOpCompute (-2) [1, 2, 3] = [1, 2, 3][(((3 : ℕ) : ℤ) + -2).toNat]?
    ∧ indexOpCompute (-1) [1, 2, 3, 4, 5] = some 5
    ∧ indexOpCompute 7 [1, 2, 3] = none := by
  have h := indexOp_wraparound_grad_scatter [1, 2, 3] 7
  exact ⟨h.1 (-2) (by decide) (by decide), h.2.1,
    (h.2.2.2 7 (by decide)).1⟩

/-- C5: `ClipGrad` passes the incoming gradient through exactly where
`min < x < max` (strict: boundary values get zero gradient); `ReLU`'s forward
is `max(x, 0)` and its gradient is the incoming gradient gated by the
indicator of `x > 0`, hence exactly `0` at `x = 0`. -/
theorem clipGrad_relu_strict_boundary (mn mx : ℚ) (x gy : List ℚ) :
    clipGradCompute mn mx x gy
      = List.zipWith (fun a g => if mn < a ∧ a < mx then g else 0) x gy
    ∧ reluCompute x = x.map (fun a => max a 0)
    ∧ reluGradCompute x gy = List.zipWith (fun a g => if 0 < a then g else 0) x gy := by
  refine ⟨?_, rfl, ?_⟩
  · rw [clipGradCompute, List.zipWith_map_left]
    have hfun : (fun (a b : ℚ) =>
          ((if mn < a then (1 : ℚ) else 0) * if a < mx then (1 : ℚ) else 0) * b)
        = fun a b => if mn < a ∧ a < mx then b else 0 := by
      funext a b
      by_cases h1 : mn < a <;> by_cases h2 : a < mx <;> simp [h1, h2]
    rw [hfun]
  · rw [reluGradCompute, mulCompute, greaterScalar, List.zipWith_map_left]
    have hfun : (fun (a b : ℚ) => (if 0 < a then (1 : ℚ) else 0) * b)
        = fun a b => if 0 < a then b else 0 := by
      funext a b
      by_cases h1 : (0 : ℚ) < a <;> simp [h1]
    rw [hfun]

/-- C1: the claim fails on the code — for a Concat of axis extents `[2, 3]`,
`ConcatGrad` slot 1 slices the upstream gradient as `gy[2..3]` (length 1,
because the slice `end` is set to `region_len` rather than
`start_idx + region_len`) instead of the spec's `gy[2..5]` of length 3; with
extents `[3, 2]` the inverted slice `gy[3..2]` is clamped to an empty view,
so slot 1 receives an empty gradient instead of the spec's `[4, 5]`.  The
emitted slices do not partition `gy`. -/
theorem concatGrad_slice_end_is_region_len :
    concatGradCompute1 0 1 [10, 20, 30, 40, 50] [[1, 2], [3, 4, 5]] = some [30]
    ∧ concatGradSliceSpec [2, 3] 1 [10, 20, 30, 40, 50] = [30, 40, 50]
    ∧ concatGradCompute1 0 1 [10, 20, 30, 40, 50] [[1, 2], [3, 4, 5]]
        ≠ some (concatGradSliceSpec [2, 3] 1 [10, 20, 30, 40, 50])
    ∧ concatGradCompute1 0 1 [1, 2, 3, 4, 5] [[1, 2, 3], [4, 5]] = some []
    ∧ concatGradSliceSpec [3, 2] 1 [1, 2, 3, 4, 5] = [4, 5]
    ∧ concatGradCompute1 0 1 [1, 2, 3, 4, 5] [[1, 2, 3], [4, 5]]
        ≠ some (concatGradSliceSpec [3, 2] 1 [1, 2, 3, 4, 5]) := by
  exact ⟨by decide, by decide, by decide, by decide, by decide, by decide⟩

/-- C2 counterexample: with non-concatenation-axis shapes disagreeing,
Concat's compute aborts fatally instead of returning a recoverable error,
and so does Reshape when the (inferred) target element count mismatches the
input's total size (`7` elements against target `[-1, 2]`). -/
theorem concat_reshape_failure_is_fatal_cex :
    concatComputeOutcome 0 [[2, 2], [2, 3]] = .fatal
    ∧ reshapeComputeOutcome 7 [-1, 2] = .fatal
    ∧ (ComputeOut.fatal : ComputeOut Unit) ≠ .err := by decide

/-- C2 (amended): Concat's and Reshape's compute never produce a recoverable
error value; the claimed failure cases (incompatible concat shapes,
element-count mismatch after inference) abort fatally. -/
theorem concat_reshape_failure_never_err :
    (∀ (axis : ℤ) (shapes : List (List ℕ)),
      (concatComputeOutcome axis shapes).isErr = false)
    ∧ (∀ (xLen : ℕ) (shapeArr : List ℤ),
      (reshapeComputeOutcome xLen shapeArr).isErr = false)
    ∧ concatComputeOutcome 0 [[2, 2], [2, 3]] = .fatal
    ∧ reshapeComputeOutcome 7 [-1, 2] = .fatal := by
  refine ⟨?_, ?_, by decide, by decide⟩
  · intro axis shapes
    cases shapes with
    | nil => rfl
    | cons s0 rest =>
      simp only [concatComputeOutcome]
      split <;> split <;> rfl
  · intro xLen shapeArr
    cases h : reshapeTarget xLen shapeArr with
    | none => simp only [reshapeComputeOutcome, h]; rfl
    | some t =>
      simp only [reshapeComputeOutcome, h]
      split <;> rfl

/-- C9: the arity invariant fails on the code — `IndexOpGrad` and `SplitGrad`
consume two inputs (`x`, `gy`) but their `grad` returns a single slot; every
other variant returns exactly one optional gradient slot per consumed
input. -/
theorem grad_arity_mismatch_indexOpGrad_splitGrad :
    (gradSlots .indexOpGrad).length = 1
    ∧ computeArity .indexOpGrad = 2
    ∧ (gradSlots .splitGrad).length = 1
    ∧ computeArity .splitGrad = 2
    ∧ ∀ op : Op, op ≠ .indexOpGrad → op ≠ .splitGrad →
        (gradSlots op).length = computeArity op := by
  refine ⟨rfl, rfl, rfl, rfl, ?_⟩
  intro op h1 h2
  cases op <;> simp_all [gradSlots, computeArity]

/-- C9 witness: the arity equality applied at a concrete variant. -/
theorem grad_arity_mismatch_w :
    (gradSlots (.addN 3)).length = computeArity (.addN 3) :=
  grad_arity_mismatch_indexOpGrad_splitGrad.2.2.2.2 (.addN 3) (by decide) (by decide)

/-- C10: every grad-only variant (`ELUGrad`, `SliceGrad`, `SplitGrad`,
`ConcatGrad`, `ClipGrad`, `GatherGrad`, `IndexOpGrad`) returns `None` in
every slot of its own `grad`, so no gradient ever propagates through a
gradient operator. -/
theorem grad_only_ops_all_none :
    (gradSlots .eluGrad).all (fun b => !b) = true
    ∧ (gradSlots .sliceGrad).all (fun b => !b) = true
    ∧ (gradSlots .splitGrad).all (fun b => !b) = true
    ∧ (∀ n : ℕ, (gradSlots (.concatGrad n)).all (fun b => !b) = true)
    ∧ (gradSlots .clipGrad).all (fun b => !b) = true
    ∧ (gradSlots .gatherGrad).all (fun b => !b) = true
    ∧ (gradSlots .indexOpGrad).all (fun b => !b) = true := by
  refine ⟨rfl, rfl, rfl, ?_, rfl, rfl, rfl⟩
  intro n
  simp [gradSlots, List.all_eq_true]

/-- The scatter loop accumulates: provided every index is in range, the loop
succeeds, and the final slab at each axis position is the left fold of
exactly those contributions whose index equals that position, applied on top
of the initial slab. -/
theorem scatterLoop_spec (n : ℕ) (pairs : List (List ℚ × ℤ)) :
    ∀ gx : List (List ℚ),
      gx.length = n →
      (∀ gi ∈ pairs, 0 ≤ gi.2 ∧ gi.2 < (n : ℤ)) →
      ∃ gx', scatterLoop gx pairs n = some gx'
        ∧ gx'.length = n
        ∧ ∀ p, p < n →
            gx'.getD p [] =
              (pairs.filter (fun gi => gi.2 == (p : ℤ))).foldl
                (fun acc gi => List.zipWith (· + ·) acc gi.1) (gx.getD p []) := by
  induction pairs with
  | nil =>
    intro gx hlen _
    exact ⟨gx, rfl, hlen, fun p _ => by simp⟩
  | cons gi0 rest ih =>
    obtain ⟨g, i⟩ := gi0
    intro gx hlen hmem
    obtain ⟨hi0, hin⟩ := hmem (g, i) (List.mem_cons_self _ _)
    have hs : (if i < 0 then (n : ℤ) + i else i) = i := if_neg (not_lt.mpr hi0)
    have he : (if i + 1 < 0 then (n : ℤ) + (i + 1) else i + 1) = i + 1 :=
      if_neg (by omega)
    simp only [scatterLoop, hs, he]
    rw [if_pos ⟨hi0, by omega, by omega⟩]
    have hlen2 :
        (gx.set i.toNat (List.zipWith (· + ·) (gx.getD i.toNat []) g)).length = n := by
      rw [List.length_set]; exact hlen
    obtain ⟨gx', h1, h2, h3⟩ :=
      ih (gx.set i.toNat (List.zipWith (· + ·) (gx.getD i.toNat []) g)) hlen2
        (fun gj hj => hmem gj (List.mem_cons_of_mem _ hj))
    refine ⟨gx', h1, h2, ?_⟩
    intro p hp
    rw [h3 p hp, List.filter_cons]
    by_cases hip : i = (p : ℤ)
    · have hset :
          (gx.set i.toNat (List.zipWith (· + ·) (gx.getD i.toNat []) g)).getD p []
            = List.zipWith (· + ·) (gx.getD p []) g := by
        have hitn : i.toNat = p := by omega
        rw [hitn, List.getD_eq_getElem?_getD,
          List.getElem?_set_self (by rw [hlen]; exact hp)]
        rfl
      rw [if_pos (by simpa using hip), List.foldl_cons, hset]
    · have hitn : i.toNat ≠ p := by omega
      have hset :
          (gx.set i.toNat (List.zipWith (· + ·) (gx.getD i.toNat []) g)).getD p []
            = gx.getD p [] := by
        rw [List.getD_eq_getElem?_getD, List.getElem?_set_ne hitn,
          ← List.getD_eq_getElem?_getD]
      rw [if_neg (by simpa using hip), hset]

/-- C3: for every valid non-negative axis the scattered gradient at each
parameter position along the axis is the accumulated sum of all
incoming-gradient slabs whose index selects that position (never a
last-write-wins overwrite); but the claim's negative-axis part fails:
`GatherGrad` resolves axis `-1` on a rank-2 parameter to `2` — the rank
itself, not the last axis `1` that the forward `Gather`'s
`normalize_negative_axis` produces — so the shape split
`param_shape[axis + 1..]` aborts fatally. -/
theorem gatherGrad_accumulates_nonneg_axis (axis : ℤ) (paramShape : List ℕ)
    (indices : List ℤ) (gySlabs : List (List ℚ))
    (ha0 : 0 ≤ axis) (ha : axis.toNat + 1 ≤ paramShape.length)
    (hidx : ∀ i ∈ indices, 0 ≤ i ∧ i < (paramShape.getD axis.toNat 0 : ℤ)) :
    (∃ gx, gatherGradCompute axis paramShape indices gySlabs = some gx
      ∧ gx.length = paramShape.getD axis.toNat 0
      ∧ ∀ p < paramShape.getD axis.toNat 0,
          gx.getD p [] =
            slabSum ((paramShape.take axis.toNat).prod *
                (paramShape.drop (axis.toNat + 1)).prod)
              (((gySlabs.zip indices).filter (fun gi => gi.2 == (p : ℤ))).map
                Prod.fst))
    ∧ gatherGradCompute (-1) [2, 3] [0] [[1, 1, 1]] = none
    ∧ normalizeNegativeAxis (-1) 2 = 1 := by
  refine ⟨?_, by decide, by decide⟩
  have haxis :
      (if axis = -1 then some paramShape.length
        else if 0 ≤ axis then some axis.toNat else none) = some axis.toNat := by
    rw [if_neg (by omega), if_pos ha0]
  obtain ⟨gx, h1, h2, h3⟩ :=
    scatterLoop_spec (paramShape.getD axis.toNat 0) (gySlabs.zip indices)
      (List.replicate (paramShape.getD axis.toNat 0)
        (List.replicate
          ((paramShape.take axis.toNat).prod * (paramShape.drop (axis.toNat + 1)).prod)
          (0 : ℚ)))
      (by rw [List.length_replicate])
      (fun gj hj => hidx gj.2 (List.of_mem_zip hj).2)
  refine ⟨gx, ?_, h2, ?_⟩
  · simp only [gatherGradCompute, haxis]
    rw [if_pos ha]
    exact h1
  · intro p hp
    rw [h3 p hp, slabSum, List.foldl_map]
    have hrep :
        (List.replicate (paramShape.getD axis.toNat 0)
          (List.replicate
            ((paramShape.take axis.toNat).prod *
              (paramShape.drop (axis.toNat + 1)).prod) (0 : ℚ))).getD p []
          = List.replicate
              ((paramShape.take axis.toNat).prod *
                (paramShape.drop (axis.toNat + 1)).prod) (0 : ℚ) := by
      rw [List.getD_eq_getElem?_getD, List.getElem?_replicate, if_pos hp]
      rfl
    rw [hrep]

/-- C3 witness: the accumulation theorem applied at axis `0`, parameter
extent `2`, repeated indices `[0, 0, 1]`. -/
theorem gatherGrad_accumulates_w :
    (∃ gx, gatherGradCompute 0 [2] [0, 0, 1] [[1], [2], [3]] = some gx
      ∧ gx.length = [2].getD ((0 : ℤ)).toNat 0
      ∧ ∀ p < [2].getD ((0 : ℤ)).toNat 0,
          gx.getD p [] =
            slabSum (([2].take ((0 : ℤ)).toNat).prod *
                ([2].drop (((0 : ℤ)).toNat + 1)).prod)
              ((([[1], [2], [3]].zip [0, 0, 1]).filter
                (fun gi => gi.2 == (p : ℤ))).map Prod.fst))
    ∧ gatherGradCompute (-1) [2, 3] [0] [[1, 1, 1]] = none
    ∧ normalizeNegativeAxis (-1) 2 = 1 :=
  gatherGrad_accumulates_nonneg_axis 0 [2] [0, 0, 1] [[1], [2], [3]]
    (by decide) (by decide) (by decide)

/-- Left-folding elementwise addition over equally-long lists: the result
keeps the length and each position accumulates the per-list entries. -/
theorem foldl_zipWith_add (len : ℕ) (rest : List (List ℚ)) :
    ∀ acc : List ℚ, acc.length = len → (∀ l ∈ rest, l.length = len) →
      (rest.foldl (List.zipWith (· + ·)) acc).length = len
      ∧ ∀ j, j < len →
          (rest.foldl (List.zipWith (· + ·)) acc).getD j 0
            = acc.getD j 0 + (rest.map fun l => l.getD j 0).sum := by
  induction rest with
  | nil =>
    intro acc hl _
    exact ⟨hl, fun j _ => by simp⟩
  | cons r rs ih =>
    intro acc hl hmem
    have hr : r.length = len := hmem r (List.mem_cons_self _ _)
    have hzl : (List.zipWith (· + ·) acc r).length = len := by
      rw [List.length_zipWith, hl, hr]
      exact min_self len
    obtain ⟨h1, h2⟩ := ih (List.zipWith (· + ·) acc r) hzl
      (fun l hlm => hmem l (List.mem_cons_of_mem _ hlm))
    refine ⟨h1, fun j hj => ?_⟩
    have hz : (List.zipWith (· + ·) acc r).getD j 0 = acc.getD j 0 + r.getD j 0 := by
      rw [List.getD_eq_getElem _ _ (by rw [hzl]; exact hj),
        List.getD_eq_getElem _ _ (by rw [hl]; exact hj),
        List.getD_eq_getElem _ _ (by rw [hr]; exact hj),
        List.getElem_zipWith]
    calc (List.foldl (List.zipWith (· + ·)) acc (r :: rs)).getD j 0
        = (List.foldl (List.zipWith (· + ·)) (List.zipWith (· + ·) acc r) rs).getD j 0 :=
          rfl
      _ = (List.zipWith (· + ·) acc r).getD j 0 + (rs.map fun l => l.getD j 0).sum :=
          h2 j hj
      _ = acc.getD j 0 + ((r :: rs).map fun l => l.getD j 0).sum := by
          rw [hz, List.map_cons, List.sum_cons]
          ring

/-- C7: `AddN` with exactly one input returns a `View` aliasing that input
(no copy); with two or more equally-long inputs it returns an `Owned` array
equal to the elementwise sum of all inputs; its gradient returns the single
incoming gradient, unchanged, once per input. -/
theorem addN_single_view_multi_sum (x : List ℚ) (xs : List (List ℚ)) (len : ℕ)
    (h2 : 2 ≤ xs.length) (hlen : ∀ l ∈ xs, l.length = len) :
    addNCompute [x] = some (.view x)
    ∧ addNCompute xs = some (.owned (addNSpecSum xs len))
    ∧ ∀ (gy : List ℚ) (k : ℕ), addNGrad gy k = List.replicate k (some gy) := by
  refine ⟨rfl, ?_, fun _ _ => rfl⟩
  obtain ⟨a, tail, rfl⟩ : ∃ a tail, xs = a :: tail := by
    cases xs with
    | nil => simp at h2
    | cons a t => exact ⟨a, t, rfl⟩
  obtain ⟨b, rest, rfl⟩ : ∃ b rest, tail = b :: rest := by
    cases tail with
    | nil => simp at h2
    | cons b r => exact ⟨b, r, rfl⟩
  have ha : a.length = len := hlen a (by simp)
  have hb : b.length = len := hlen b (by simp)
  have hab : (List.zipWith (· + ·) a b).length = len := by
    rw [List.length_zipWith, ha, hb]
    exact min_self len
  obtain ⟨h1, hgd⟩ := foldl_zipWith_add len rest (List.zipWith (· + ·) a b) hab
    (fun l hl => hlen l (by simp [hl]))
  have hres : rest.foldl (List.zipWith (· + ·)) (List.zipWith (· + ·) a b)
      = addNSpecSum (a :: b :: rest) len := by
    apply List.ext_getElem
    · rw [h1, addNSpecSum, List.length_map, List.length_range]
    · intro j hj1 hj2
      have hjlen : j < len := by rw [h1] at hj1; exact hj1
      have hz : (List.zipWith (· + ·) a b).getD j 0 = a.getD j 0 + b.getD j 0 := by
        rw [List.getD_eq_getElem _ _ (by rw [hab]; exact hjlen),
          List.getD_eq_getElem _ _ (by rw [ha]; exact hjlen),
          List.getD_eq_getElem _ _ (by rw [hb]; exact hjlen),
          List.getElem_zipWith]
      have hspec : (addNSpecSum (a :: b :: rest) len)[j]
          = ((a :: b :: rest).map fun l => l.getD j 0).sum := by
        simp only [addNSpecSum]
        rw [List.getElem_map, List.getElem_range]
      rw [← List.getD_eq_getElem _ (0 : ℚ) hj1, hgd j hjlen, hspec,
        List.map_cons, List.map_cons, List.sum_cons, List.sum_cons, hz]
      ring
  cases rest with
  | nil =>
    simp only [addNCompute]
    rw [← hres]
    rfl
  | cons c cs =>
    simp only [addNCompute]
    rw [hres]

/-- C7 witness: the AddN theorem applied at concrete inputs. -/
theorem addN_single_view_multi_sum_w :
    addNCompute [[9]] = some (.view [9])
    ∧ addNCompute [[1, 2], [3, 4], [5, 6]]
        = some (.owned (addNSpecSum [[1, 2], [3, 4], [5, 6]] 2))
    ∧ ∀ (gy : List ℚ) (k : ℕ), addNGrad gy k = List.replicate k (some gy) :=
  addN_single_view_multi_sum [9] [[1, 2], [3, 4], [5, 6]] 2 (by decide) (by decide)

/-- Dividing every entry of a list divides its sum. -/
theorem list_sum_map_div (l : List ℝ) (c : ℝ) : (l.map (· / c)).sum = l.sum / c := by
  induction l with
  | nil => simp
  | cons a t ih => simp [ih, add_div]

/-- C8: Softmax's forward subtracts the lane maximum before exponentiating
and divides by the lane sum of exponentials, so for every non-empty input
the outputs along the reduction axis are non-negative and sum to 1 (for any
fold seed rendering `T::min_value()`); and its gradient computes
`dx = (dy - sum(y * dy)) * y` where `y` is the forward output. -/
theorem softmax_rowwise_prob_and_grad (minValue : ℝ) (x gy : List ℝ) (hx : x ≠ []) :
    (∀ v ∈ softmaxForward1 minValue x, 0 ≤ v)
    ∧ (softmaxForward1 minValue x).sum = 1
    ∧ softmaxGrad1 (softmaxForward1 minValue x) gy
        = List.zipWith
            (fun g yv =>
              (g - (List.zipWith (· * ·) (softmaxForward1 minValue x) gy).sum) * yv)
            gy (softmaxForward1 minValue x) := by
  have hpos : ∀ t ∈ x.map (fun a => Real.exp (a - x.foldl max minValue)), 0 < t := by
    intro t ht
    obtain ⟨a, _, rfl⟩ := List.mem_map.mp ht
    exact Real.exp_pos _
  have hne : x.map (fun a => Real.exp (a - x.foldl max minValue)) ≠ [] := by
    simpa using hx
  have hsum : 0 < (x.map (fun a => Real.exp (a - x.foldl max minValue))).sum :=
    List.sum_pos _ hpos hne
  refine ⟨?_, ?_, ?_⟩
  · intro v hv
    simp only [softmaxForward1] at hv
    obtain ⟨t, ht, rfl⟩ := List.mem_map.mp hv
    exact le_of_lt (div_pos (hpos t ht) hsum)
  · simp only [softmaxForward1]
    rw [list_sum_map_div]
    exact div_self (ne_of_gt hsum)
  · simp only [softmaxGrad1]
    rw [List.zipWith_map_left]

/-- C8 witness: the Softmax theorem applied at a concrete lane. -/
theorem softmax_rowwise_prob_and_grad_w :
    (∀ v ∈ softmaxForward1 0 [0], 0 ≤ v)
    ∧ (softmaxForward1 0 [0]).sum = 1
    ∧ softmaxGrad1 (softmaxForward1 0 [0]) [1]
        = List.zipWith
            (fun g yv => (g - (List.zipWith (· * ·) (softmaxForward1 0 [0]) [1]).sum) * yv)
            [1] (softmaxForward1 0 [0]) :=
  softmax_rowwise_prob_and_grad 0 [0] [1] (by simp)

/-- A successful expansion loop never shrinks the shape. -/
theorem expandLoop_length (n0 : ℕ) (axes : List ℤ) :
    ∀ (s E : List ℕ), expandLoop n0 s axes = some E → s.length ≤ E.length := by
  induction axes with
  | nil =>
    intro s E hE
    cases hE
    exact le_rfl
  | cons i rest ih =>
    intro s E hE
    simp only [expandLoop] at hE
    by_cases hc : 0 ≤ (if i < 0 then (n0 : ℤ) + i else i)
        ∧ (if i < 0 then (n0 : ℤ) + i else i).toNat ≤ s.length
    · rw [if_pos hc] at hE
      have := ih _ _ hE
      rw [List.length_insertIdx _ _ hc.2] at this
      omega
    · rw [if_neg hc] at hE
      simp at hE

/-- Inserting a unit extent at position `a` first, then running the
expansion loop on axes all strictly beyond `a`, is the same as running the
loop with all those axes shifted down by one and inserting at `a` last. -/
theorem expandLoop_insert_comm (n0 : ℕ) (axes : List ℤ) :
    ∀ (t : List ℕ) (a : ℕ), a ≤ t.length →
      (∀ b ∈ axes, (a : ℤ) < b) →
      expandLoop n0 (t.insertIdx a 1) axes
        = (expandLoop n0 t (axes.map (· - 1))).map fun E => E.insertIdx a 1 := by
  induction axes with
  | nil =>
    intro t a _ _
    rfl
  | cons b rest ih =>
    intro t a ha hlt
    have hb : (a : ℤ) < b := hlt b (List.mem_cons_self _ _)
    simp only [expandLoop, List.map_cons]
    have e1 : (if b < 0 then (n0 : ℤ) + b else b) = b := if_neg (by omega)
    have e2 : (if b - 1 < 0 then (n0 : ℤ) + (b - 1) else b - 1) = b - 1 :=
      if_neg (by omega)
    rw [e1, e2]
    have hlen : (t.insertIdx a 1).length = t.length + 1 := List.length_insertIdx _ _ ha
    by_cases hc : (b - 1).toNat ≤ t.length
    · rw [if_pos ⟨by omega, by rw [hlen]; omega⟩, if_pos ⟨by omega, hc⟩]
      have hcomm : (t.insertIdx a 1).insertIdx b.toNat 1
          = (t.insertIdx (b - 1).toNat 1).insertIdx a 1 := by
        have hb1 : (b - 1).toNat + 1 = b.toNat := by omega
        rw [← hb1]
        exact List.insertIdx_comm 1 1 a (b - 1).toNat t (by omega) hc
      rw [hcomm]
      exact ih (t.insertIdx (b - 1).toNat 1) a
        (by rw [List.length_insertIdx _ _ hc]; omega)
        (fun c hcm => by have := hlt c (List.mem_cons_of_mem _ hcm); omega)
    · rw [if_neg (fun hcon => hc (by rw [hlen] at hcon; omega)),
        if_neg (fun hcon => hc (by omega))]
      rfl

/-- Shifting every remaining squeeze axis down by one is the same as
increasing the running `adjust` offset by one (all axes at least 1). -/
theorem squeezeLoop_shift (axes : List ℤ) :
    ∀ (E : List ℕ) (δ : ℕ), (∀ b ∈ axes, 1 ≤ b) →
      squeezeLoop E (δ + 1) axes = squeezeLoop E δ (axes.map (· - 1)) := by
  induction axes with
  | nil =>
    intro E δ _
    rfl
  | cons b rest ih =>
    intro E δ hb
    have hb1 : 1 ≤ b := hb b (List.mem_cons_self _ _)
    simp only [squeezeLoop, List.map_cons]
    have e1 : (if b < 0 then (E.length : ℤ) + b else b) = b := if_neg (by omega)
    have e2 : (if b - 1 < 0 then (E.length : ℤ) + (b - 1) else b - 1) = b - 1 :=
      if_neg (by omega)
    simp only [e1, e2]
    have htn : b.toNat - (δ + 1) = (b - 1).toNat - δ := by omega
    by_cases hc : δ + 1 ≤ b.toNat
    · have hcondR : 0 ≤ b - 1 ∧ δ ≤ (b - 1).toNat := ⟨by omega, by omega⟩
      rw [if_pos ⟨by omega, hc⟩, if_pos hcondR]
      simp only [htn]
      by_cases h : (b - 1).toNat - δ < E.length
      · rw [dif_pos h, dif_pos h]
        by_cases hone : E.get ⟨(b - 1).toNat - δ, h⟩ = 1
        · rw [if_pos hone, if_pos hone]
          exact ih _ _ (fun c hcm => hb c (List.mem_cons_of_mem _ hcm))
        · rw [if_neg hone, if_neg hone]
      · rw [dif_neg h, dif_neg h]
    · rw [if_neg (fun hcon => hc hcon.2),
        if_neg (fun hcon => hc (by have h2 := hcon.2; omega))]

/-- Round-trip at the shape level: squeezing with the same strictly
increasing list of non-negative axes undoes a successful expansion. -/
theorem expand_then_squeeze (n0 k : ℕ) :
    ∀ (axes : List ℤ) (s E : List ℕ),
      axes.length ≤ k →
      (∀ i ∈ axes, 0 ≤ i) → axes.Chain' (· < ·) →
      expandLoop n0 s axes = some E →
      squeezeLoop E 0 axes = some s := by
  induction k with
  | zero =>
    intro axes s E hk _ _ hE
    have haxes : axes = [] := List.length_eq_zero.mp (Nat.le_zero.mp hk)
    subst haxes
    cases hE
    rfl
  | succ k ih =>
    intro axes s E hk hnn hch hE
    cases axes with
    | nil =>
      cases hE
      rfl
    | cons a rest =>
      have ha0 : 0 ≤ a := hnn a (List.mem_cons_self _ _)
      have hpw : (a :: rest).Pairwise (· < ·) := List.chain'_iff_pairwise.mp hch
      have hrest_lt : ∀ b ∈ rest, a < b := (List.pairwise_cons.mp hpw).1
      have hpw_rest : rest.Pairwise (· < ·) := (List.pairwise_cons.mp hpw).2
      simp only [expandLoop] at hE
      have e1 : (if a < 0 then (n0 : ℤ) + a else a) = a := if_neg (by omega)
      rw [e1] at hE
      by_cases hc : 0 ≤ a ∧ a.toNat ≤ s.length
      · rw [if_pos hc] at hE
        rw [expandLoop_insert_comm n0 rest s a.toNat hc.2
          (fun b hbm => by have := hrest_lt b hbm; omega)] at hE
        obtain ⟨E', hE', hEeq⟩ := Option.map_eq_some'.mp hE
        have hlenE' : s.length ≤ E'.length := expandLoop_length n0 _ _ _ hE'
        have hle : a.toNat ≤ E'.length := le_trans hc.2 hlenE'
        have hElen : E.length = E'.length + 1 := by
          rw [← hEeq]
          exact List.length_insertIdx _ _ hle
        simp only [squeezeLoop]
        have e2 : (if a < 0 then (E.length : ℤ) + a else a) = a := if_neg (by omega)
        simp only [e2]
        rw [if_pos ⟨ha0, Nat.zero_le _⟩]
        have hlt : a.toNat - 0 < E.length := by omega
        rw [dif_pos hlt]
        have hget : E.get ⟨a.toNat - 0, hlt⟩ = 1 := by
          simp only [List.get_eq_getElem, Nat.sub_zero]
          conv in E => rw [← hEeq]
          exact List.getElem_insertIdx_self E' 1 a.toNat hle
        rw [if_pos hget]
        have herase : E.eraseIdx (a.toNat - 0) = E' := by
          simp only [Nat.sub_zero]
          rw [← hEeq]
          exact List.eraseIdx_insertIdx a.toNat E'
        rw [herase,
          squeezeLoop_shift rest E' 0 (fun b hbm => by have := hrest_lt b hbm; omega)]
        apply ih (rest.map (· - 1)) s E'
        · rw [List.length_map]
          exact Nat.le_of_succ_le_succ hk
        · intro i him
          obtain ⟨b, hbm, rfl⟩ := List.mem_map.mp him
          have := hrest_lt b hbm
          omega
        · rw [List.chain'_map]
          exact (List.chain'_iff_pairwise.mpr hpw_rest).imp (fun hab => by omega)
        · exact hE'
      · rw [if_neg hc] at hE
        simp at hE

/-- C6 counterexample: the round-trip fails for a negative axis —
`ExpandDims` resolves `-1` against the original rank (yielding shape
`[1, 2]` from `[2]`), while `Squeeze` resolves `-1` against the expanded
rank (selecting the extent-2 axis), so the squeeze aborts on its
`assert_eq!(1, ..)` instead of returning the original array. -/
theorem squeeze_expandDims_negative_axis_cex :
    expandDimsCompute ⟨[2], [5, 6]⟩ [-1] = some ⟨[1, 2], [5, 6]⟩
    ∧ squeezeCompute ⟨[1, 2], [5, 6]⟩ [-1] = none
    ∧ squeezeCompute ⟨[1, 2], [5, 6]⟩ [-1] ≠ some ⟨[2], [5, 6]⟩ := by
  refine ⟨by decide, by decide, by decide⟩

/-- C6 (amended): for every set of *non-negative*, strictly sorted axis
positions on which `ExpandDims` succeeds,
`Squeeze(ExpandDims(x, axes), axes) = x`. -/
theorem squeeze_expandDims_roundtrip_nonneg (x : Arr) (axes : List ℤ) (y : Arr)
    (hnn : ∀ i ∈ axes, 0 ≤ i) (hch : axes.Chain' (· < ·))
    (hE : expandDimsCompute x axes = some y) :
    squeezeCompute y axes = some x := by
  have hsorted : axes.insertionSort (· ≤ ·) = axes :=
    List.Sorted.insertionSort_eq
      ((List.chain'_iff_pairwise.mp hch).imp fun h => le_of_lt h)
  rw [expandDimsCompute, hsorted] at hE
  obtain ⟨E, hE1, hE2⟩ := Option.bind_eq_some.mp hE
  by_cases hprod : E.prod = x.data.length
  · rw [if_pos hprod] at hE2
    have hy : Arr.mk E x.data = y := Option.some_inj.mp hE2
    have hyshape : y.shape = E := by rw [← hy]
    have hydata : y.data = x.data := by rw [← hy]
    rw [squeezeCompute, hsorted, hyshape, hydata,
      expand_then_squeeze x.shape.length axes.length axes x.shape E le_rfl hnn hch hE1]
    rfl
  · rw [if_neg hprod] at hE2
    simp at hE2

/-- C6 witness: the amended round-trip applied at shape `[2, 3]` and axes
`[0, 2]`. -/
theorem squeeze_expandDims_roundtrip_nonneg_w :
    squeezeCompute ⟨[1, 2, 1, 3], [1, 2, 3, 4, 5, 6]⟩ [0, 2]
      = some ⟨[2, 3], [1, 2, 3, 4, 5, 6]⟩ :=
  squeeze_expandDims_roundtrip_nonneg ⟨[2, 3], [1, 2, 3, 4, 5, 6]⟩ [0, 2]
    ⟨[1, 2, 1, 3], [1, 2, 3, 4, 5, 6]⟩ (by decide) (by simp [List.chain'_cons])
    (by decide)
